import Mathlib

/-!
Verification of the glora market-data ingestion engine against its
specification.  The C++ sources are shallowly embedded: `double` prices and
quantities become `ℚ`, `uint64_t` timestamps become `ℕ`, `int64_t` trade ids
become `ℤ`, and the SQLite-backed durable store becomes an explicit list of
rows keyed exactly as the schema's UNIQUE constraints key them.
-/

namespace Glora

/-- A single trade, from `core::Tick` in `src/core/DataModels.h`. -/
structure Tick where
  timestamp_ms : ℕ
  price : ℚ
  quantity : ℚ
  is_buyer_maker : Bool
deriving DecidableEq, Repr

/-- Bid/ask volume at one price level, from `core::PriceNode` in
`src/core/DataModels.h`. -/
structure PriceNode where
  bid_volume : ℚ := 0
  ask_volume : ℚ := 0
deriving DecidableEq, Repr

/-- `flat_map::operator[]` first performs a linear scan for an entry whose key
is equal to `k` (equality of keys under the `std::greater` comparator, i.e.
plain equality on `ℚ`) and hands the caller a reference to the first match;
the caller's `+=` then mutates exactly that entry.  `modifyFirst` applies `f`
to the first entry with key `k`, leaving every other entry unchanged. -/
def modifyFirst (m : List (ℚ × PriceNode)) (k : ℚ) (f : PriceNode → PriceNode) :
    List (ℚ × PriceNode) :=
  match m with
  | [] => []
  | p :: rest => if p.1 = k then (p.1, f p.2) :: rest else p :: modifyFirst rest k f

/-- When the key is absent, `flat_map::operator[]` appends `(k, Value{})` at
the back and re-sorts the vector with the `std::greater` comparator
(descending keys); the caller's `+=` then mutates the freshly inserted entry.
`flatMapUpdate` is the combined effect on the footprint of
`footprint_profile[k] .field += q` from `src/core/DataModels.h`. -/
def flatMapUpdate (m : List (ℚ × PriceNode)) (k : ℚ) (f : PriceNode → PriceNode) :
    List (ℚ × PriceNode) :=
  if m.any (fun p => decide (p.1 = k)) then
    modifyFirst m k f
  else
    modifyFirst (List.insertionSort (fun a b => b.1 ≤ a.1) (m ++ [(k, ⟨0, 0⟩)])) k f

/-- A candlestick with OHLCV and footprint, from `core::Candle` in
`src/core/DataModels.h`.  The C++ field `open` is a Lean keyword and is
embedded as `open_`. -/
structure Candle where
  start_time_ms : ℕ := 0
  end_time_ms : ℕ := 0
  open_ : ℚ := 0
  high : ℚ := 0
  low : ℚ := 0
  close : ℚ := 0
  volume : ℚ := 0
  footprint_profile : List (ℚ × PriceNode) := []
deriving DecidableEq, Repr

/-- `Candle::add_tick` from `src/core/DataModels.h`: OHLC update guarded by
the `open == 0.0` first-trade sentinel, unconditional `volume += quantity`,
then the footprint update routed by `is_buyer_maker`. -/
def Candle.add_tick (c : Candle) (t : Tick) : Candle :=
  let c1 :=
    if c.open_ = 0 then
      { c with open_ := t.price, high := t.price, low := t.price, close := t.price }
    else
      { c with
        high := (if t.price > c.high then t.price else c.high),
        low := (if t.price < c.low then t.price else c.low),
        close := t.price }
  let c2 := { c1 with volume := c1.volume + t.quantity }
  if t.is_buyer_maker then
    let fp := flatMapUpdate c2.footprint_profile t.price
      (fun n => { n with bid_volume := n.bid_volume + t.quantity })
    { c2 with footprint_profile := fp }
  else
    let fp := flatMapUpdate c2.footprint_profile t.price
      (fun n => { n with ask_volume := n.ask_volume + t.quantity })
    { c2 with footprint_profile := fp }

/-- A freshly value-initialized `core::Candle`: all prices and the volume are
zero and the footprint is empty. -/
def emptyCandle : Candle := {}

/-- Total bid volume recorded at price level `k` of a footprint. -/
def fpBid (m : List (ℚ × PriceNode)) (k : ℚ) : ℚ :=
  ((m.filter (fun p => decide (p.1 = k))).map (fun p => p.2.bid_volume)).sum

/-- Total ask volume recorded at price level `k` of a footprint. -/
def fpAsk (m : List (ℚ × PriceNode)) (k : ℚ) : ℚ :=
  ((m.filter (fun p => decide (p.1 = k))).map (fun p => p.2.ask_volume)).sum

/-! ## Stream reconciler (`BinanceClient` buffering and flush) -/

/-- A live `aggTrade` message as buffered in `wsMessageBuffer_`: the optional
`"a"` field (the aggregate trade id) and the tick payload decoded from the
`"T"`, `"p"`, `"q"`, `"m"` fields. -/
structure BufferedMsg where
  tradeId : Option ℤ
  tick : Tick
deriving DecidableEq, Repr

/-- The `BinanceClient` members that participate in buffering and
deduplication: `bufferingEnabled_`, `wsMessageBuffer_`, `seenTradeIds_`
(an unordered set, modelled as a duplicate-free insertion list) and the
watermark `lastRestTradeId_`. -/
structure StreamState where
  bufferingEnabled : Bool
  wsMessageBuffer : List BufferedMsg
  seenTradeIds : List ℤ
  lastRestTradeId : ℤ
deriving DecidableEq, Repr

/-- `std::unordered_set::insert`: a no-op when the id is already present. -/
def insertSeen (seen : List ℤ) (id : ℤ) : List ℤ :=
  if id ∈ seen then seen else seen ++ [id]

/-- The drain loop of `BinanceClient::flushBuffer`
(`src/network/BinanceClient.cpp:485-515`): for each buffered message in
arrival order, if it carries a trade id `<=` the watermark it is skipped;
otherwise its id is inserted into the seen set and the decoded tick is handed
to `onTick`.  Returns the ticks applied (in order) and the final seen set.
Note that the loop inserts into the seen set but never tests membership. -/
def flushGo (w : ℤ) : List BufferedMsg → List ℤ → List Tick × List ℤ
  | [], seen => ([], seen)
  | m :: rest, seen =>
    match m.tradeId with
    | some id =>
      if id ≤ w then flushGo w rest seen
      else
        let r := flushGo w rest (insertSeen seen id)
        (m.tick :: r.1, r.2)
    | none =>
      let r := flushGo w rest seen
      (m.tick :: r.1, r.2)

/-- `BinanceClient::flushBuffer`: an early return when buffering is disabled,
otherwise the drain loop above followed by clearing the buffer.  The result
pairs the new state with the list of ticks delivered to the callback. -/
def flushBuffer (s : StreamState) : StreamState × List Tick :=
  if s.bufferingEnabled then
    let r := flushGo s.lastRestTradeId s.wsMessageBuffer s.seenTradeIds
    ({ s with wsMessageBuffer := [], seenTradeIds := r.2 }, r.1)
  else (s, [])

/-- The observable steps of `BinanceClient::bootstrapHistoryThenStream`
(`src/network/BinanceClient.cpp:685-726`), in program order.  `fetchKlines`
is a synchronous HTTPS round trip that invokes its completion callback before
returning, so the source order of the statements is the temporal order of the
steps. -/
inductive BootstrapStep where
  | fetchHistoryStart
  | fetchHistoryComplete
  | setWatermark
  | notifyHistoryComplete
  | enableBuffering
  | subscribeLive
  | connectLive
deriving DecidableEq, BEq, Repr

/-- The step sequence executed by `bootstrapHistoryThenStream`: the
historical fetch runs to completion first; only inside its completion
callback does the client set the watermark, notify the caller, set
`bufferingEnabled_ = true`, call `subscribeAggTrades` and start the
websocket. -/
def bootstrapTrace : List BootstrapStep :=
  [BootstrapStep.fetchHistoryStart, BootstrapStep.fetchHistoryComplete,
   BootstrapStep.setWatermark, BootstrapStep.notifyHistoryComplete,
   BootstrapStep.enableBuffering, BootstrapStep.subscribeLive,
   BootstrapStep.connectLive]

/-! ## Gap detection (`Database::detectGaps`) -/

/-- A detected gap, from `database::DataGap` in `src/database/Database.h`. -/
structure DataGap where
  symbol : String
  startTime : ℕ
  endTime : ℕ
deriving DecidableEq, Repr

/-- The row scan of `Database::detectGaps`
(`src/database/Database.cpp:330-351`), with `prevTime` and `first` exactly as
in the source: on the first row a leading gap `[startTime, t]` is emitted when
`startTime > 0 && (prevTime == 0 || prevTime > startTime)` and
`t - startTime > maxGapMs`; on later rows a gap `[prev, t]` is emitted when
`t - prev > maxGapMs`. -/
def detectGapsLoop (symbol : String) (startTime maxGapMs : ℕ) :
    List ℕ → ℕ → Bool → List DataGap
  | [], _, _ => []
  | t :: rest, prevTime, first =>
    if first then
      (if startTime > 0 ∧ (prevTime = 0 ∨ prevTime > startTime) ∧
          t - startTime > maxGapMs
       then [⟨symbol, startTime, t⟩] else []) ++
      detectGapsLoop symbol startTime maxGapMs rest t false
    else
      (if t - prevTime > maxGapMs then [⟨symbol, prevTime, t⟩] else []) ++
      detectGapsLoop symbol startTime maxGapMs rest t false

/-- The SQL feeding `detectGaps`: all tick timestamps of the symbol with
`timestamp_ms >= startTime AND timestamp_ms <= endTime`, `ORDER BY
timestamp_ms ASC`.  `stored` is the symbol's tick timestamps in the table. -/
def ticksInRange (stored : List ℕ) (startTime endTime : ℕ) : List ℕ :=
  List.insertionSort (fun a b => a ≤ b)
    (stored.filter (fun t => decide (startTime ≤ t) && decide (t ≤ endTime)))

/-- `Database::detectGaps` over the per-symbol stored tick timestamps:
the ordered range scan followed by the gap loop (`prevTime = 0`,
`first = true` initially). -/
def detectGaps (stored : List ℕ) (symbol : String)
    (startTime endTime maxGapMs : ℕ) : List DataGap :=
  detectGapsLoop symbol startTime maxGapMs
    (ticksInRange stored startTime endTime) 0 true

/-- Spec-side description of the interior gap rule, following §4.3 of the
specification word for word: scanning an ascending timestamp list, a gap
`[prev, curr]` is emitted exactly when the delta between consecutive
timestamps exceeds `maxGapMs`. -/
def consecGaps (symbol : String) (maxGapMs : ℕ) : List ℕ → List DataGap
  | a :: b :: rest =>
    (if b - a > maxGapMs then [⟨symbol, a, b⟩] else []) ++
    consecGaps symbol maxGapMs (b :: rest)
  | _ => []

/-! ## Backfill orchestrator (`DataManager::detectAndFillGaps`) -/

/-- Wrapping `uint64_t` subtraction, for `now - 300000` in
`DataManager::detectAndFillGaps`. -/
def u64sub (a b : ℕ) : ℕ := (a + 2 ^ 64 - b % 2 ^ 64) % 2 ^ 64

/-- `SELECT MAX(timestamp_ms)` over the symbol's ticks
(`Database::getLatestTickTime`). -/
def getLatestTickTime (stored : List ℕ) : Option ℕ := stored.max?

/-- `SELECT MIN(timestamp_ms)` over the symbol's ticks
(`Database::getEarliestTickTime`). -/
def getEarliestTickTime (stored : List ℕ) : Option ℕ := stored.min?

/-- The fetch ranges issued by `DataManager::detectAndFillGaps`
(`src/core/DataManager.cpp:93-128`), in order: with no stored data the whole
window `[startTime, now]`; else if the earliest stored tick is missing or
later than the window start, the single range `[startTime, latest]`; else the
detected gaps of size `>= 60000` followed by the tail range `[latest, now]`
when `latest < now - 300000` (wrapping `uint64_t` subtraction). -/
def detectAndFillGapsRanges (stored : List ℕ) (symbol : String)
    (startTime now : ℕ) : List (ℕ × ℕ) :=
  match getLatestTickTime stored with
  | none => [(startTime, now)]
  | some latest =>
    match getEarliestTickTime stored with
    | none => [(startTime, latest)]
    | some earliest =>
      if earliest > startTime then [(startTime, latest)]
      else
        ((detectGaps stored symbol startTime latest 60000).filter
            (fun gp => decide (¬ gp.endTime - gp.startTime < 60000))).map
          (fun gp => (gp.startTime, gp.endTime)) ++
        (if latest < u64sub now 300000 then [(latest, now)] else [])

/-! ## Durable store writes (`Database::insertTicks` / `insertCandles`) -/

/-- A row of the `ticks` table; the schema declares
`UNIQUE(symbol, timestamp_ms, price, quantity)`. -/
structure TickRow where
  symbol : String
  timestamp_ms : ℕ
  price : ℚ
  quantity : ℚ
  is_buyer_maker : Bool
deriving DecidableEq, Repr

/-- Whether a stored row collides with the identity tuple of `(sym, t)`
under the `ticks` table's UNIQUE constraint. -/
def tickKeyMatches (r : TickRow) (sym : String) (t : Tick) : Bool :=
  decide (r.symbol = sym ∧ r.timestamp_ms = t.timestamp_ms ∧
          r.price = t.price ∧ r.quantity = t.quantity)

/-- One `INSERT OR IGNORE INTO ticks` statement execution: a no-op when a row
with the same identity tuple exists, otherwise an append. -/
def insertTickRow (sym : String) (rows : List TickRow) (t : Tick) : List TickRow :=
  if rows.any (fun r => tickKeyMatches r sym t) then rows
  else rows ++ [⟨sym, t.timestamp_ms, t.price, t.quantity, t.is_buyer_maker⟩]

/-- `Database::insertTicks` on an open database with a successfully prepared
statement: the batch of `INSERT OR IGNORE` executions inside one transaction.
Returns the new table contents; the C++ function returns `true` on this
path. -/
def insertTicks (sym : String) (ticks : List Tick) (rows : List TickRow) :
    List TickRow :=
  ticks.foldl (insertTickRow sym) rows

/-- The boolean result of `Database::insertTicks`
(`src/database/Database.cpp:142-173`) as a function of the failure points the
source actually tests.  `stepRc` gives the `sqlite3_step` result for each row
of the batch (`101` is `SQLITE_DONE`; `13` is `SQLITE_FULL`).  The source
discards the value of every `sqlite3_step` call in its loop and of the COMMIT,
so `stepRc` does not occur in the body. -/
def insertTicksReturn (dbOpen prepareOk : Bool) (ticks : List Tick)
    (_stepRc : ℕ → ℕ) : Bool :=
  if ticks.isEmpty || !dbOpen then true
  else if !prepareOk then false
  else true

/-- The boolean result of `Database::insertCandles`
(`src/database/Database.cpp:244-276`): same control flow as `insertTicks`,
with `INSERT OR REPLACE` bodies; the per-row `sqlite3_step` results and the
COMMIT result are likewise discarded. -/
def insertCandlesReturn (dbOpen prepareOk : Bool) (candles : List Candle)
    (_stepRc : ℕ → ℕ) : Bool :=
  if candles.isEmpty || !dbOpen then true
  else if !prepareOk then false
  else true

/-! ## Historical fetch pagination (`BinanceClient::fetchHistoricalAggTrades`) -/

/-- `chunkSize = maxLimit * 1000` from
`src/network/BinanceClient.cpp:198-199`. -/
def chunkSize : ℕ := 1000 * 1000

/-- The `uint64_t` modulus: cursor arithmetic in the pagination loop wraps
modulo `2^64`. -/
def W64 : ℕ := 2 ^ 64

/-- The next value of the pagination cursor: the loop body computes
`currentEnd = min(currentStart + chunkSize, endTime)` and then sets
`currentStart = currentEnd + 1`, both in wrapping `uint64_t` arithmetic. -/
def fetchStep (cs e : ℕ) : ℕ := (min ((cs + chunkSize) % W64) e + 1) % W64

/-- The pagination loop of `BinanceClient::fetchHistoricalAggTrades`
(`src/network/BinanceClient.cpp:201-251`), fuelled so that non-termination is
expressible: `page cs ce` is the list of ticks parsed from the HTTP response
for the window `[cs, ce]` (possibly empty), `acc` accumulates `allTicks`.
The additions `currentStart + chunkSize` and `currentEnd + 1` wrap modulo
`2^64` exactly as the `uint64_t` arithmetic of the source does.  `none` means
the fuel ran out before the loop condition `currentStart < endTime` failed. -/
def fetchGo (page : ℕ → ℕ → List Tick) :
    ℕ → ℕ → ℕ → List Tick → Option (List Tick)
  | 0, cs, e, acc => if cs < e then none else some acc
  | fuel + 1, cs, e, acc =>
    if cs < e then
      let ce := min ((cs + chunkSize) % W64) e
      fetchGo page fuel ((ce + 1) % W64) e (acc ++ page cs ce)
    else some acc

/-! ## Thread-safe queue (`core::ThreadSafeQueue`) -/

/-- The state of a `ThreadSafeQueue<T>`: the FIFO contents and the `valid_`
flag (initially `true`, cleared by `invalidate`). -/
structure TSQueue (T : Type) where
  queue : List T
  valid : Bool
deriving DecidableEq, Repr

/-- `ThreadSafeQueue::push`: enqueue at the back. -/
def TSQueue.push {T : Type} (q : TSQueue T) (x : T) : TSQueue T :=
  { q with queue := q.queue ++ [x] }

/-- `ThreadSafeQueue::pop`: waits until the queue is non-empty or invalid;
then returns `nullopt` if invalid (without dequeuing), else dequeues the
front.  The outer `none` models the blocked wait (valid and empty), which
never returns. -/
def TSQueue.pop {T : Type} (q : TSQueue T) : Option (Option T × TSQueue T) :=
  if q.valid = false then some (none, q)
  else
    match q.queue with
    | [] => none
    | x :: rest => some (some x, { q with queue := rest })

/-- `ThreadSafeQueue::try_pop`: returns `nullopt` without blocking when the
queue is empty or invalid, else dequeues the front. -/
def TSQueue.try_pop {T : Type} (q : TSQueue T) : Option T × TSQueue T :=
  if q.queue.isEmpty || !q.valid then (none, q)
  else
    match q.queue with
    | [] => (none, q)
    | x :: rest => (some x, { q with queue := rest })

/-- `ThreadSafeQueue::invalidate`: clears `valid_`. -/
def TSQueue.invalidate {T : Type} (q : TSQueue T) : TSQueue T :=
  { q with valid := false }

/-- An arbitrary later interaction with the queue. -/
inductive QueueOp (T : Type) where
  | push (x : T)
  | pop
  | tryPop
  | invalidate

/-- State transition of one queue operation (for `pop`, a blocked wait leaves
the state unchanged). -/
def applyQueueOp {T : Type} (q : TSQueue T) : QueueOp T → TSQueue T
  | QueueOp.push x => q.push x
  | QueueOp.pop =>
    match q.pop with
    | some (_, q') => q'
    | none => q
  | QueueOp.tryPop => (q.try_pop).2
  | QueueOp.invalidate => q.invalidate

/-! ## Theorems -/

theorem applyQueueOp_invalid {T : Type} (q : TSQueue T) (op : QueueOp T)
    (h : q.valid = false) : (applyQueueOp q op).valid = false := by
  cases op with
  | push x => simpa [applyQueueOp, TSQueue.push] using h
  | pop => simp [applyQueueOp, TSQueue.pop, h]
  | tryPop => simp [applyQueueOp, TSQueue.try_pop, h]
  | invalidate => simp [applyQueueOp, TSQueue.invalidate]

theorem foldl_applyQueueOp_invalid {T : Type} (ops : List (QueueOp T)) :
    ∀ q : TSQueue T, q.valid = false →
      (ops.foldl applyQueueOp q).valid = false := by
  induction ops with
  | nil => intro q h; simpa using h
  | cons op ops ih =>
    intro q h
    exact ih (applyQueueOp q op) (applyQueueOp_invalid q op h)

/-- C10: once `invalidate()` has been called on a `ThreadSafeQueue`, the
`valid_` flag stays false through any further interaction, and every
subsequent `pop()` and `try_pop()` returns nothing without dequeuing — items
still in the queue are never delivered. -/
theorem tsqueue_invalidated_drops_items {T : Type} (q : TSQueue T)
    (ops : List (QueueOp T)) :
    (ops.foldl applyQueueOp q.invalidate).valid = false ∧
    (ops.foldl applyQueueOp q.invalidate).pop =
      some (none, ops.foldl applyQueueOp q.invalidate) ∧
    (ops.foldl applyQueueOp q.invalidate).try_pop =
      (none, ops.foldl applyQueueOp q.invalidate) := by
  have hv : (ops.foldl applyQueueOp q.invalidate).valid = false :=
    foldl_applyQueueOp_invalid ops q.invalidate (by simp [TSQueue.invalidate])
  refine ⟨hv, ?_, ?_⟩
  · simp [TSQueue.pop, hv]
  · simp [TSQueue.try_pop, hv]

/-- C2: in `bootstrapHistoryThenStream` the historical fetch starts (and even
completes) strictly before buffering is enabled and before the live
subscription is made — the opposite of the specified ordering, so live trades
arriving during the fetch are lost. -/
theorem bootstrap_fetch_precedes_buffering :
    bootstrapTrace.indexOf BootstrapStep.fetchHistoryStart <
      bootstrapTrace.indexOf BootstrapStep.enableBuffering ∧
    bootstrapTrace.indexOf BootstrapStep.fetchHistoryStart <
      bootstrapTrace.indexOf BootstrapStep.subscribeLive ∧
    bootstrapTrace.indexOf BootstrapStep.fetchHistoryComplete <
      bootstrapTrace.indexOf BootstrapStep.enableBuffering := by
  decide

/-- C9: `insertTicks` and `insertCandles` discard the result of every
`sqlite3_step` in their batch loops (and of the COMMIT), so a storage-layer
failure such as `SQLITE_FULL` (rc 13) on every row still yields `true` —
the failure is silently swallowed instead of surfaced. -/
theorem insert_step_failure_swallowed :
    insertTicksReturn true true [⟨0, 1, 1, false⟩] (fun _ => 13) = true ∧
    insertCandlesReturn true true [emptyCandle] (fun _ => 13) = true := by
  exact ⟨rfl, rfl⟩

theorem fetchGo_isSome (page : ℕ → ℕ → List Tick) (e : ℕ)
    (he : e ≤ W64 - chunkSize) :
    ∀ (fuel cs : ℕ) (acc : List Tick), e - cs ≤ fuel →
      ∃ r, fetchGo page fuel cs e acc = some r := by
  intro fuel
  induction fuel with
  | zero =>
    intro cs acc h
    have : ¬ cs < e := by omega
    exact ⟨acc, by simp [fetchGo, this]⟩
  | succ n ih =>
    intro cs acc h
    by_cases hlt : cs < e
    · have hW : W64 = 18446744073709551616 := by decide
      have hch : chunkSize = 1000000 := by decide
      have hadd : (cs + chunkSize) % W64 = cs + chunkSize :=
        Nat.mod_eq_of_lt (by omega)
      have hminle : min (cs + chunkSize) e ≤ e := min_le_right _ _
      have hmod : (min (cs + chunkSize) e + 1) % W64 =
          min (cs + chunkSize) e + 1 :=
        Nat.mod_eq_of_lt (by omega)
      have hcs : cs ≤ min (cs + chunkSize) e :=
        le_min (Nat.le_add_right _ _) (le_of_lt hlt)
      have hfuel : e - (min (cs + chunkSize) e + 1) ≤ n := by omega
      obtain ⟨r, hr⟩ := ih (min (cs + chunkSize) e + 1)
        (acc ++ page cs (min (cs + chunkSize) e)) hfuel
      refine ⟨r, ?_⟩
      simp only [fetchGo, if_pos hlt, hadd, hmod]
      exact hr
    · exact ⟨acc, by simp [fetchGo, hlt]⟩

/-- C8 (counterexample to the claim as stated): the cursor is a `uint64_t`,
and at `endTime = 2^64 - 1` its arithmetic wraps.  From
`currentStart = 2^64 - 2` (below `endTime`, so the loop body runs) the source
computes `currentEnd = min((2^64 - 2) + 10^6 mod 2^64, 2^64 - 1) = 999998`
and then `currentStart = 999999` — the cursor jumps backwards instead of
strictly increasing, and after the iteration the loop is still running
(`fetchGo` with one unit of fuel returns `none`). -/
theorem fetch_cursor_wraps_counterexample :
    fetchStep (2 ^ 64 - 2) (2 ^ 64 - 1) = 999999 ∧
    fetchStep (2 ^ 64 - 2) (2 ^ 64 - 1) < 2 ^ 64 - 2 ∧
    2 ^ 64 - 2 < 2 ^ 64 - 1 ∧
    fetchGo (fun _ _ => []) 1 (2 ^ 64 - 2) (2 ^ 64 - 1) [] = none := by
  exact ⟨by decide, by decide, by decide, by decide⟩

/-- C8 (amended): whenever `endTime <= 2^64 - chunkSize` — so the cursor's
`uint64_t` arithmetic cannot wrap — the pagination loop of
`fetchHistoricalAggTrades` terminates for every `startTime <= endTime` and
every page function, including the function returning an empty page
everywhere: `e - s` iterations of fuel always suffice; the cursor strictly
increases on every iteration that runs; and the loop exits immediately
(returning the accumulator untouched) exactly when the cursor has reached
`endTime`, independently of page contents. -/
theorem fetch_pagination_terminates (page : ℕ → ℕ → List Tick) (s e : ℕ)
    (h : s ≤ e) (he : e ≤ W64 - chunkSize) :
    (∃ r, fetchGo page (e - s) s e [] = some r) ∧
    (∀ cs, cs < e → cs < fetchStep cs e) ∧
    (∀ fuel acc cs, e ≤ cs → fetchGo page fuel cs e acc = some acc) := by
  refine ⟨fetchGo_isSome page e he (e - s) s [] le_rfl, ?_, ?_⟩
  · intro cs hlt
    have hW : W64 = 18446744073709551616 := by decide
    have hch : chunkSize = 1000000 := by decide
    have hadd : (cs + chunkSize) % W64 = cs + chunkSize :=
      Nat.mod_eq_of_lt (by omega)
    have hminle : min (cs + chunkSize) e ≤ e := min_le_right _ _
    have hcs : cs ≤ min (cs + chunkSize) e :=
      le_min (Nat.le_add_right _ _) (le_of_lt hlt)
    unfold fetchStep
    rw [hadd, Nat.mod_eq_of_lt (by omega)]
    omega
  · intro fuel acc cs hge
    have : ¬ cs < e := by omega
    cases fuel with
    | zero => simp [fetchGo, this]
    | succ n => simp [fetchGo, this]

/-- Witness for C8 at `s = 0`, `e = 100` (far below the wrap region), with
every page empty. -/
theorem fetch_pagination_terminates_witness :
    (∃ r, fetchGo (fun _ _ => []) (100 - 0) 0 100 [] = some r) ∧
    (∀ cs, cs < 100 → cs < fetchStep cs 100) ∧
    (∀ fuel acc cs, 100 ≤ cs →
      fetchGo (fun _ _ => ([] : List Tick)) fuel cs 100 acc = some acc) :=
  fetch_pagination_terminates (fun _ _ => []) 0 100 (by decide) (by decide)

theorem detectGapsLoop_false (symbol : String) (startTime maxGapMs : ℕ) :
    ∀ (rows : List ℕ) (prev : ℕ),
      detectGapsLoop symbol startTime maxGapMs rows prev false =
        consecGaps symbol maxGapMs (prev :: rows) := by
  intro rows
  induction rows with
  | nil => intro prev; simp [detectGapsLoop, consecGaps]
  | cons t rest ih =>
    intro prev
    simp [detectGapsLoop, consecGaps, ih t]

/-- C5 (counterexample to the claim as stated): with `start = 0` the code
never emits a leading gap, because of the `startTime > 0` guard — here the
first stored timestamp 70000 exceeds `start = 0` by more than
`minGapMs = 60000`, yet `detectGaps` returns no gap at all. -/
theorem detectGaps_no_leading_gap_at_zero_start :
    detectGaps [70000] "BTCUSDT" 0 100000 60000 = [] ∧
    detectGaps [70000] "BTCUSDT" 0 100000 60000 ≠ [⟨"BTCUSDT", 0, 70000⟩] ∧
    70000 - 0 > 60000 := by
  refine ⟨by decide, by decide, by decide⟩

/-- C5 (amended): `detectGaps` scans the stored timestamps inside the window
in ascending order and emits an interior gap `[prev, curr]` exactly when the
delta between consecutive timestamps exceeds `minGapMs`, plus a leading gap
`[start, first]` exactly when `start > 0` and the first stored timestamp
exceeds `start` by more than `minGapMs`; in particular on stored timestamps
`{1000, 71000}` it returns exactly `[1000, 71000]` at `minGapMs = 60000` and
nothing at `minGapMs = 80000`. -/
theorem detectGaps_spec :
    (∀ (stored : List ℕ) (symbol : String) (s e g : ℕ),
      detectGaps stored symbol s e g =
        (match ticksInRange stored s e with
         | [] => []
         | f :: _ => if 0 < s ∧ f - s > g then [⟨symbol, s, f⟩] else []) ++
        consecGaps symbol g (ticksInRange stored s e)) ∧
    detectGaps [1000, 71000] "BTCUSDT" 1000 200000 60000 =
      [⟨"BTCUSDT", 1000, 71000⟩] ∧
    detectGaps [1000, 71000] "BTCUSDT" 1000 200000 80000 = [] := by
  refine ⟨?_, by decide, by decide⟩
  intro stored symbol s e g
  unfold detectGaps
  cases hrows : ticksInRange stored s e with
  | nil => simp [detectGapsLoop, consecGaps]
  | cons f rest =>
    by_cases hs : 0 < s <;> by_cases hg : f - s > g <;>
      simp [detectGapsLoop, detectGapsLoop_false, hs, hg]

/-- C6 (counterexample to the claim as stated): with stored ticks at
`{500000, 900000}` and window start `100000`, the earliest stored trade
(500000) is later than the window start, and the claim says the fetched range
is `[windowStart, earliestStored] = [100000, 500000]`; the code instead
fetches `[windowStart, latestStored] = [100000, 900000]`, a strictly larger
range. -/
theorem backfill_prefix_counterexample :
    detectAndFillGapsRanges [500000, 900000] "BTCUSDT" 100000 1000000 =
      [(100000, 900000)] ∧
    detectAndFillGapsRanges [500000, 900000] "BTCUSDT" 100000 1000000 ≠
      [(100000, 500000)] := by
  exact ⟨by decide, by decide⟩

/-- C6 (amended): on load, if no stored trades exist the orchestrator fetches
the entire window `[windowStart, now]`; else, if the earliest stored trade is
later than the window start, it fetches the single range
`[windowStart, latestStored]` (a superset of the missing prefix
`[windowStart, earliestStored]`). -/
theorem backfill_range_selection (stored : List ℕ) (symbol : String)
    (s now m M : ℕ) :
    (stored = [] → detectAndFillGapsRanges stored symbol s now = [(s, now)]) ∧
    (stored.min? = some m → stored.max? = some M → s < m →
      detectAndFillGapsRanges stored symbol s now = [(s, M)]) := by
  constructor
  · intro h
    subst h
    simp [detectAndFillGapsRanges, getLatestTickTime]
  · intro hmin hmax hs
    unfold detectAndFillGapsRanges getLatestTickTime getEarliestTickTime
    rw [hmax, hmin]
    simp [hs]

/-- Witness for C6 at both branches: an empty store, and a store whose
earliest tick (500000) is later than the window start (100000). -/
theorem backfill_range_selection_witness :
    detectAndFillGapsRanges [] "BTCUSDT" 100 200 = [(100, 200)] ∧
    detectAndFillGapsRanges [500000, 900000] "BTCUSDT" 100000 1000000 =
      [(100000, 900000)] :=
  ⟨(backfill_range_selection [] "BTCUSDT" 100 200 0 0).1 rfl,
   (backfill_range_selection [500000, 900000] "BTCUSDT" 100000 1000000
      500000 900000).2 (by decide) (by decide) (by decide)⟩

theorem insertTickRow_key_mono (sym : String) (rows : List TickRow)
    (t u : Tick) (h : rows.any (fun r => tickKeyMatches r sym t) = true) :
    (insertTickRow sym rows u).any (fun r => tickKeyMatches r sym t) = true := by
  unfold insertTickRow
  split
  · exact h
  · rw [List.any_append]
    simp [h]

theorem insertTickRow_key_self (sym : String) (rows : List TickRow) (t : Tick) :
    (insertTickRow sym rows t).any (fun r => tickKeyMatches r sym t) = true := by
  unfold insertTickRow
  split
  · assumption
  · rw [List.any_append]
    simp [tickKeyMatches]

theorem insertTicks_key_mono (sym : String) (ticks : List Tick) :
    ∀ (rows : List TickRow) (t : Tick),
      rows.any (fun r => tickKeyMatches r sym t) = true →
      (insertTicks sym ticks rows).any (fun r => tickKeyMatches r sym t) = true := by
  induction ticks with
  | nil => intro rows t h; exact h
  | cons u us ih =>
    intro rows t h
    exact ih (insertTickRow sym rows u) t (insertTickRow_key_mono sym rows t u h)

theorem insertTicks_key_present (sym : String) (ticks : List Tick) :
    ∀ (rows : List TickRow) (t : Tick), t ∈ ticks →
      (insertTicks sym ticks rows).any (fun r => tickKeyMatches r sym t) = true := by
  induction ticks with
  | nil => intro rows t h; cases h
  | cons u us ih =>
    intro rows t h
    rcases List.mem_cons.mp h with rfl | hmem
    · exact insertTicks_key_mono sym us (insertTickRow sym rows t) t
        (insertTickRow_key_self sym rows t)
    · exact ih (insertTickRow sym rows u) t hmem

theorem insertTicks_all_present (sym : String) (ticks : List Tick) :
    ∀ (rows : List TickRow),
      (∀ t ∈ ticks, rows.any (fun r => tickKeyMatches r sym t) = true) →
      insertTicks sym ticks rows = rows := by
  induction ticks with
  | nil => intro rows _; rfl
  | cons u us ih =>
    intro rows h
    have hu : insertTickRow sym rows u = rows := by
      unfold insertTickRow
      rw [if_pos (h u (List.mem_cons_self u us))]
    show insertTicks sym us (insertTickRow sym rows u) = rows
    rw [hu]
    exact ih rows (fun t ht => h t (List.mem_cons_of_mem u ht))

/-- C7: `upsertTrades` (the `INSERT OR IGNORE` batch of `insertTicks`) is
idempotent — submitting the same trade set twice leaves the stored rows (and
hence the row count) identical to submitting it once — and re-submitting
already-stored trades returns success, not an error. -/
theorem upsertTrades_idempotent (sym : String) (ticks : List Tick)
    (rows : List TickRow) :
    insertTicks sym ticks (insertTicks sym ticks rows) =
      insertTicks sym ticks rows ∧
    (insertTicks sym ticks (insertTicks sym ticks rows)).length =
      (insertTicks sym ticks rows).length ∧
    insertTicksReturn true true ticks (fun _ => 101) = true := by
  have hidem : insertTicks sym ticks (insertTicks sym ticks rows) =
      insertTicks sym ticks rows :=
    insertTicks_all_present sym ticks (insertTicks sym ticks rows)
      (fun t ht => insertTicks_key_present sym ticks rows t ht)
  refine ⟨hidem, by rw [hidem], ?_⟩
  unfold insertTicksReturn
  split
  · rfl
  · rfl

theorem flushGo_fst (w : ℤ) :
    ∀ (buf : List BufferedMsg) (seen : List ℤ),
      (flushGo w buf seen).1 =
        (buf.filter (fun m =>
          match m.tradeId with
          | some id => decide (w < id)
          | none => true)).map BufferedMsg.tick := by
  intro buf
  induction buf with
  | nil => intro seen; rfl
  | cons m rest ih =>
    intro seen
    cases hmt : m.tradeId with
    | some id =>
      by_cases hle : id ≤ w
      · have hnot : ¬ w < id := not_lt.mpr hle
        simp [flushGo, hmt, hle, hnot, ih]
      · have hlt : w < id := not_le.mp hle
        simp [flushGo, hmt, hle, hlt, ih]
    | none =>
      simp [flushGo, hmt, ih]

/-- C1 (counterexample to the claim as stated): the claim says trade ids
already in the seen set are dropped during flush, but `flushBuffer` never
consults `seenTradeIds_` — here id 51 is above the watermark 50 and already
in the seen set, yet its tick is applied to the callback. -/
theorem flush_ignores_seen_counterexample :
    (flushBuffer ⟨true, [⟨some 51, ⟨1, 2, 3, false⟩⟩], [51], 50⟩).2 =
      [⟨1, 2, 3, false⟩] ∧
    (51 : ℤ) ∈ ([51] : List ℤ) ∧ (50 : ℤ) < 51 := by
  exact ⟨by decide, by decide, by decide⟩

/-- C1 (amended): with buffering enabled, `flushBuffer` drops exactly the
buffered trades whose id is `<=` the watermark `lastRestTradeId_` (the
watermark is inclusive) and applies every other buffered message's tick to
the callback in arrival order, once per buffered occurrence; the seen set is
populated but not consulted during the flush, and the buffer is left empty.
With distinct buffered ids the surviving trades are therefore applied exactly
once each. -/
theorem flushBuffer_dedup (s : StreamState) (h : s.bufferingEnabled = true) :
    (flushBuffer s).2 =
      (s.wsMessageBuffer.filter (fun m =>
        match m.tradeId with
        | some id => decide (s.lastRestTradeId < id)
        | none => true)).map BufferedMsg.tick ∧
    (flushBuffer s).1.wsMessageBuffer = [] := by
  unfold flushBuffer
  rw [if_pos h]
  exact ⟨flushGo_fst s.lastRestTradeId s.wsMessageBuffer s.seenTradeIds, rfl⟩

/-- Witness for C1: historical ids `{1..50}` give watermark 50; the buffer
holds ids `{45..60}`; after the flush exactly the ticks of ids `{51..60}`
are applied, in order, with no duplicates and no gaps. -/
theorem flushBuffer_dedup_witness :
    (flushBuffer ⟨true,
      [⟨some 45, ⟨45, 1, 1, false⟩⟩, ⟨some 46, ⟨46, 1, 1, false⟩⟩,
       ⟨some 47, ⟨47, 1, 1, false⟩⟩, ⟨some 48, ⟨48, 1, 1, false⟩⟩,
       ⟨some 49, ⟨49, 1, 1, false⟩⟩, ⟨some 50, ⟨50, 1, 1, false⟩⟩,
       ⟨some 51, ⟨51, 1, 1, false⟩⟩, ⟨some 52, ⟨52, 1, 1, false⟩⟩,
       ⟨some 53, ⟨53, 1, 1, false⟩⟩, ⟨some 54, ⟨54, 1, 1, false⟩⟩,
       ⟨some 55, ⟨55, 1, 1, false⟩⟩, ⟨some 56, ⟨56, 1, 1, false⟩⟩,
       ⟨some 57, ⟨57, 1, 1, false⟩⟩, ⟨some 58, ⟨58, 1, 1, false⟩⟩,
       ⟨some 59, ⟨59, 1, 1, false⟩⟩, ⟨some 60, ⟨60, 1, 1, false⟩⟩],
      [], 50⟩).2 =
      [⟨51, 1, 1, false⟩, ⟨52, 1, 1, false⟩, ⟨53, 1, 1, false⟩,
       ⟨54, 1, 1, false⟩, ⟨55, 1, 1, false⟩, ⟨56, 1, 1, false⟩,
       ⟨57, 1, 1, false⟩, ⟨58, 1, 1, false⟩, ⟨59, 1, 1, false⟩,
       ⟨60, 1, 1, false⟩] := by
  rw [(flushBuffer_dedup ⟨true,
      [⟨some 45, ⟨45, 1, 1, false⟩⟩, ⟨some 46, ⟨46, 1, 1, false⟩⟩,
       ⟨some 47, ⟨47, 1, 1, false⟩⟩, ⟨some 48, ⟨48, 1, 1, false⟩⟩,
       ⟨some 49, ⟨49, 1, 1, false⟩⟩, ⟨some 50, ⟨50, 1, 1, false⟩⟩,
       ⟨some 51, ⟨51, 1, 1, false⟩⟩, ⟨some 52, ⟨52, 1, 1, false⟩⟩,
       ⟨some 53, ⟨53, 1, 1, false⟩⟩, ⟨some 54, ⟨54, 1, 1, false⟩⟩,
       ⟨some 55, ⟨55, 1, 1, false⟩⟩, ⟨some 56, ⟨56, 1, 1, false⟩⟩,
       ⟨some 57, ⟨57, 1, 1, false⟩⟩, ⟨some 58, ⟨58, 1, 1, false⟩⟩,
       ⟨some 59, ⟨59, 1, 1, false⟩⟩, ⟨some 60, ⟨60, 1, 1, false⟩⟩],
      [], 50⟩ rfl).1]
  decide

theorem if_lt_max (a b : ℚ) : (if a < b then b else a) = max a b := by
  rcases le_or_lt b a with h | h
  · rw [if_neg (not_lt.mpr h), max_eq_left h]
  · rw [if_pos h, max_eq_right (le_of_lt h)]

theorem if_lt_min (a b : ℚ) : (if b < a then b else a) = min a b := by
  rcases le_or_lt a b with h | h
  · rw [if_neg (not_lt.mpr h), min_eq_left h]
  · rw [if_pos h, min_eq_right (le_of_lt h)]

theorem getLastD_cons_eq (a d : ℚ) (l : List ℚ) :
    (a :: l).getLastD d = l.getLastD a := by
  cases l <;> simp [List.getLastD]

theorem add_tick_open_ne (c : Candle) (t : Tick) (h : c.open_ ≠ 0) :
    (c.add_tick t).open_ = c.open_ ∧
    (c.add_tick t).high = max c.high t.price ∧
    (c.add_tick t).low = min c.low t.price ∧
    (c.add_tick t).close = t.price ∧
    (c.add_tick t).volume = c.volume + t.quantity := by
  unfold Candle.add_tick
  cases hb : t.is_buyer_maker <;>
    simp [h, gt_iff_lt, if_lt_max, if_lt_min]

theorem add_tick_open_zero (c : Candle) (t : Tick) (h : c.open_ = 0) :
    (c.add_tick t).open_ = t.price ∧
    (c.add_tick t).high = t.price ∧
    (c.add_tick t).low = t.price ∧
    (c.add_tick t).close = t.price ∧
    (c.add_tick t).volume = c.volume + t.quantity := by
  unfold Candle.add_tick
  cases hb : t.is_buyer_maker <;> simp [h]

theorem foldl_add_tick_open_ne (ts : List Tick) :
    ∀ (c : Candle), c.open_ ≠ 0 →
      (ts.foldl Candle.add_tick c).open_ = c.open_ ∧
      (ts.foldl Candle.add_tick c).close = (ts.map Tick.price).getLastD c.close ∧
      (ts.foldl Candle.add_tick c).volume =
        c.volume + (ts.map Tick.quantity).sum ∧
      (ts.foldl Candle.add_tick c).high = (ts.map Tick.price).foldl max c.high ∧
      (ts.foldl Candle.add_tick c).low = (ts.map Tick.price).foldl min c.low := by
  induction ts with
  | nil => intro c h; simp
  | cons t ts ih =>
    intro c h
    have step := add_tick_open_ne c t h
    have h1 : (c.add_tick t).open_ ≠ 0 := by rw [step.1]; exact h
    obtain ⟨r1, r2, r3, r4, r5⟩ := ih (c.add_tick t) h1
    refine ⟨?_, ?_, ?_, ?_, ?_⟩
    · rw [List.foldl_cons, r1, step.1]
    · rw [List.foldl_cons, r2, step.2.2.2.1]
      simp only [List.map_cons]
      rw [getLastD_cons_eq]
    · rw [List.foldl_cons, r3, step.2.2.2.2]
      simp [add_assoc]
    · rw [List.foldl_cons, r4, step.2.1]
      simp
    · rw [List.foldl_cons, r5, step.2.2.1]
      simp

theorem le_foldl_max_init (a : ℚ) (l : List ℚ) : a ≤ l.foldl max a := by
  induction l generalizing a with
  | nil => simp
  | cons x l ih => exact le_trans (le_max_left a x) (ih (max a x))

theorem le_foldl_max_mem (a x : ℚ) (l : List ℚ) (hx : x ∈ l) :
    x ≤ l.foldl max a := by
  induction l generalizing a with
  | nil => cases hx
  | cons y l ih =>
    rcases List.mem_cons.mp hx with rfl | hmem
    · exact le_trans (le_max_right a x) (le_foldl_max_init (max a x) l)
    · exact ih (max a y) hmem

theorem foldl_max_mem (a : ℚ) (l : List ℚ) : l.foldl max a = a ∨ l.foldl max a ∈ l := by
  induction l generalizing a with
  | nil => exact Or.inl rfl
  | cons x l ih =>
    rcases ih (max a x) with h | h
    · rcases max_choice a x with hm | hm
      · left; rw [List.foldl_cons, h, hm]
      · right; rw [List.foldl_cons, h, hm]; exact List.mem_cons_self x l
    · right; exact List.mem_cons_of_mem x h

theorem foldl_min_init_le (a : ℚ) (l : List ℚ) : l.foldl min a ≤ a := by
  induction l generalizing a with
  | nil => simp
  | cons x l ih => exact le_trans (ih (min a x)) (min_le_left a x)

theorem foldl_min_le_mem (a x : ℚ) (l : List ℚ) (hx : x ∈ l) :
    l.foldl min a ≤ x := by
  induction l generalizing a with
  | nil => cases hx
  | cons y l ih =>
    rcases List.mem_cons.mp hx with rfl | hmem
    · exact le_trans (foldl_min_init_le (min a x) l) (min_le_right a x)
    · exact ih (min a y) hmem

theorem foldl_min_mem (a : ℚ) (l : List ℚ) : l.foldl min a = a ∨ l.foldl min a ∈ l := by
  induction l generalizing a with
  | nil => exact Or.inl rfl
  | cons x l ih =>
    rcases ih (min a x) with h | h
    · rcases min_choice a x with hm | hm
      · left; rw [List.foldl_cons, h, hm]
      · right; rw [List.foldl_cons, h, hm]; exact List.mem_cons_self x l
    · right; exact List.mem_cons_of_mem x h

/-- C3 (counterexample to the claim as stated): `add_tick` recognizes the
first trade by the sentinel `open == 0.0`, so a first trade whose price is 0
is forgotten — a following trade at price 5 is treated as the first trade
again, and the resulting candle has `open = 5` (not the first trade's price
0) and `low = 5` (not the minimum 0). -/
theorem candle_zero_price_counterexample :
    (([⟨0, 0, 1, false⟩, ⟨1, 5, 1, false⟩] : List Tick).foldl
        Candle.add_tick emptyCandle).open_ = 5 ∧
    (([⟨0, 0, 1, false⟩, ⟨1, 5, 1, false⟩] : List Tick).foldl
        Candle.add_tick emptyCandle).low = 5 ∧
    (⟨0, 0, 1, false⟩ : Tick).price = 0 ∧ (5 : ℚ) ≠ 0 := by
  refine ⟨by decide, by decide, by decide, by decide⟩

/-- C3 (amended): for every non-empty trade sequence whose FIRST trade has a
non-zero price, folding via `add_tick` yields a candle with `open` the first
trade's price, `close` the last trade's price, `volume` the exact sum of
quantities, `high` an attained upper bound of all trade prices and `low` an
attained lower bound — in any arrival order. -/
theorem candle_fold_ohlcv (t : Tick) (ts : List Tick) (h : t.price ≠ 0) :
    ((t :: ts).foldl Candle.add_tick emptyCandle).open_ = t.price ∧
    ((t :: ts).foldl Candle.add_tick emptyCandle).close =
      ((t :: ts).map Tick.price).getLastD 0 ∧
    ((t :: ts).foldl Candle.add_tick emptyCandle).volume =
      ((t :: ts).map Tick.quantity).sum ∧
    (∀ u ∈ t :: ts,
      u.price ≤ ((t :: ts).foldl Candle.add_tick emptyCandle).high) ∧
    ((t :: ts).foldl Candle.add_tick emptyCandle).high ∈
      (t :: ts).map Tick.price ∧
    (∀ u ∈ t :: ts,
      ((t :: ts).foldl Candle.add_tick emptyCandle).low ≤ u.price) ∧
    ((t :: ts).foldl Candle.add_tick emptyCandle).low ∈
      (t :: ts).map Tick.price := by
  have hz : emptyCandle.open_ = 0 := rfl
  obtain ⟨s1, s2, s3, s4, s5⟩ := add_tick_open_zero emptyCandle t hz
  have h1 : (emptyCandle.add_tick t).open_ ≠ 0 := by rw [s1]; exact h
  obtain ⟨r1, r2, r3, r4, r5⟩ := foldl_add_tick_open_ne ts (emptyCandle.add_tick t) h1
  have hfold : (t :: ts).foldl Candle.add_tick emptyCandle =
      ts.foldl Candle.add_tick (emptyCandle.add_tick t) := rfl
  refine ⟨?_, ?_, ?_, ?_, ?_, ?_, ?_⟩
  · rw [hfold, r1, s1]
  · rw [hfold, r2, s4]
    simp only [List.map_cons]
    rw [getLastD_cons_eq]
  · rw [hfold, r3, s5]
    have : emptyCandle.volume = 0 := rfl
    simp [this, add_assoc]
  · intro u hu
    rw [hfold, r4, s2]
    rcases List.mem_cons.mp hu with rfl | hmem
    · exact le_foldl_max_init u.price (ts.map Tick.price)
    · exact le_foldl_max_mem t.price u.price (ts.map Tick.price)
        (List.mem_map_of_mem Tick.price hmem)
  · rw [hfold, r4, s2]
    rcases foldl_max_mem t.price (ts.map Tick.price) with hm | hm
    · rw [hm]; simp
    · simp only [List.map_cons]; exact List.mem_cons_of_mem _ hm
  · intro u hu
    rw [hfold, r5, s3]
    rcases List.mem_cons.mp hu with rfl | hmem
    · exact foldl_min_init_le u.price (ts.map Tick.price)
    · exact foldl_min_le_mem t.price u.price (ts.map Tick.price)
        (List.mem_map_of_mem Tick.price hmem)
  · rw [hfold, r5, s3]
    rcases foldl_min_mem t.price (ts.map Tick.price) with hm | hm
    · rw [hm]; simp
    · simp only [List.map_cons]; exact List.mem_cons_of_mem _ hm

/-- Witness for C3: three trades with first price 10 (non-zero), prices
`10, 5, 20`, quantities `2, 1, 3`. -/
theorem candle_fold_ohlcv_witness :
    ((((⟨0, 10, 2, false⟩ : Tick) :: [⟨1, 5, 1, true⟩, ⟨2, 20, 3, false⟩]).foldl
        Candle.add_tick emptyCandle).open_ = (⟨0, 10, 2, false⟩ : Tick).price) ∧
    ((((⟨0, 10, 2, false⟩ : Tick) :: [⟨1, 5, 1, true⟩, ⟨2, 20, 3, false⟩]).foldl
        Candle.add_tick emptyCandle).close =
      (((⟨0, 10, 2, false⟩ : Tick) :: [⟨1, 5, 1, true⟩, ⟨2, 20, 3, false⟩]).map
        Tick.price).getLastD 0) ∧
    ((((⟨0, 10, 2, false⟩ : Tick) :: [⟨1, 5, 1, true⟩, ⟨2, 20, 3, false⟩]).foldl
        Candle.add_tick emptyCandle).volume =
      (((⟨0, 10, 2, false⟩ : Tick) :: [⟨1, 5, 1, true⟩, ⟨2, 20, 3, false⟩]).map
        Tick.quantity).sum) := by
  obtain ⟨w1, w2, w3, _⟩ :=
    candle_fold_ohlcv ⟨0, 10, 2, false⟩ [⟨1, 5, 1, true⟩, ⟨2, 20, 3, false⟩]
      (by decide)
  exact ⟨w1, w2, w3⟩

theorem fpBid_cons (p : ℚ × PriceNode) (m : List (ℚ × PriceNode)) (j : ℚ) :
    fpBid (p :: m) j = (if p.1 = j then p.2.bid_volume else 0) + fpBid m j := by
  unfold fpBid
  by_cases h : p.1 = j <;> simp [h, List.filter_cons]

theorem fpAsk_cons (p : ℚ × PriceNode) (m : List (ℚ × PriceNode)) (j : ℚ) :
    fpAsk (p :: m) j = (if p.1 = j then p.2.ask_volume else 0) + fpAsk m j := by
  unfold fpAsk
  by_cases h : p.1 = j <;> simp [h, List.filter_cons]

theorem fpBid_append (l l' : List (ℚ × PriceNode)) (j : ℚ) :
    fpBid (l ++ l') j = fpBid l j + fpBid l' j := by
  unfold fpBid
  simp [List.filter_append]

theorem fpAsk_append (l l' : List (ℚ × PriceNode)) (j : ℚ) :
    fpAsk (l ++ l') j = fpAsk l j + fpAsk l' j := by
  unfold fpAsk
  simp [List.filter_append]

theorem fpBid_perm (l l' : List (ℚ × PriceNode)) (h : l.Perm l') (j : ℚ) :
    fpBid l j = fpBid l' j := by
  unfold fpBid
  exact List.Perm.sum_eq (List.Perm.map _ (List.Perm.filter _ h))

theorem fpAsk_perm (l l' : List (ℚ × PriceNode)) (h : l.Perm l') (j : ℚ) :
    fpAsk l j = fpAsk l' j := by
  unfold fpAsk
  exact List.Perm.sum_eq (List.Perm.map _ (List.Perm.filter _ h))

theorem fpBid_modifyFirst (k j qb : ℚ) (f : PriceNode → PriceNode)
    (hb : ∀ n, (f n).bid_volume = n.bid_volume + qb) :
    ∀ m : List (ℚ × PriceNode),
      fpBid (modifyFirst m k f) j =
        fpBid m j +
          (if k = j ∧ m.any (fun p => decide (p.1 = k)) = true then qb else 0) := by
  intro m
  induction m with
  | nil => simp [modifyFirst, fpBid]
  | cons p rest ih =>
    by_cases hpk : p.1 = k
    · simp only [modifyFirst, if_pos hpk]
      rw [fpBid_cons, fpBid_cons]
      have hany : (p :: rest).any (fun p => decide (p.1 = k)) = true := by
        simp [hpk]
      by_cases hkj : k = j
      · subst hkj
        simp [hpk, hb, hany]
        try ring
      · have hpj : p.1 ≠ j := fun hh => hkj (hpk.symm.trans hh)
        simp [hpj, hkj]
    · simp only [modifyFirst, if_neg hpk]
      rw [fpBid_cons, fpBid_cons, ih]
      have hany : (p :: rest).any (fun p => decide (p.1 = k)) =
          rest.any (fun p => decide (p.1 = k)) := by
        simp [hpk]
      rw [hany]
      ring

theorem fpAsk_modifyFirst (k j qa : ℚ) (f : PriceNode → PriceNode)
    (ha : ∀ n, (f n).ask_volume = n.ask_volume + qa) :
    ∀ m : List (ℚ × PriceNode),
      fpAsk (modifyFirst m k f) j =
        fpAsk m j +
          (if k = j ∧ m.any (fun p => decide (p.1 = k)) = true then qa else 0) := by
  intro m
  induction m with
  | nil => simp [modifyFirst, fpAsk]
  | cons p rest ih =>
    by_cases hpk : p.1 = k
    · simp only [modifyFirst, if_pos hpk]
      rw [fpAsk_cons, fpAsk_cons]
      have hany : (p :: rest).any (fun p => decide (p.1 = k)) = true := by
        simp [hpk]
      by_cases hkj : k = j
      · subst hkj
        simp [hpk, ha, hany]
        try ring
      · have hpj : p.1 ≠ j := fun hh => hkj (hpk.symm.trans hh)
        simp [hpj, hkj]
    · simp only [modifyFirst, if_neg hpk]
      rw [fpAsk_cons, fpAsk_cons, ih]
      have hany : (p :: rest).any (fun p => decide (p.1 = k)) =
          rest.any (fun p => decide (p.1 = k)) := by
        simp [hpk]
      rw [hany]
      ring

theorem any_key_insertionSorted (m : List (ℚ × PriceNode)) (k : ℚ) :
    ((List.insertionSort (fun a b => b.1 ≤ a.1) (m ++ [(k, ⟨0, 0⟩)])).any
      (fun p => decide (p.1 = k))) = true := by
  rw [List.any_eq_true]
  refine ⟨(k, ⟨0, 0⟩), ?_, by simp⟩
  have hperm := List.perm_insertionSort (fun a b => b.1 ≤ a.1) (m ++ [(k, ⟨0, 0⟩)])
  rw [hperm.mem_iff]
  simp

theorem fpBid_flatMapUpdate (m : List (ℚ × PriceNode)) (k j qb : ℚ)
    (f : PriceNode → PriceNode)
    (hb : ∀ n, (f n).bid_volume = n.bid_volume + qb) :
    fpBid (flatMapUpdate m k f) j = fpBid m j + (if k = j then qb else 0) := by
  unfold flatMapUpdate
  by_cases hfound : m.any (fun p => decide (p.1 = k)) = true
  · rw [if_pos hfound, fpBid_modifyFirst k j qb f hb m]
    by_cases hkj : k = j
    · rw [if_pos ⟨hkj, hfound⟩, if_pos hkj]
    · rw [if_neg (fun hh => hkj hh.1), if_neg hkj]
  · rw [if_neg hfound, fpBid_modifyFirst k j qb f hb]
    have hsort := List.perm_insertionSort (fun a b => b.1 ≤ a.1) (m ++ [(k, ⟨0, 0⟩)])
    rw [fpBid_perm _ _ hsort j, fpBid_append, any_key_insertionSorted m k]
    have hsingle : fpBid [(k, ⟨0, 0⟩)] j = 0 := by
      by_cases hkj : k = j <;> simp [fpBid, hkj]
    rw [hsingle]
    by_cases hkj : k = j <;> simp [hkj]

theorem fpAsk_flatMapUpdate (m : List (ℚ × PriceNode)) (k j qa : ℚ)
    (f : PriceNode → PriceNode)
    (ha : ∀ n, (f n).ask_volume = n.ask_volume + qa) :
    fpAsk (flatMapUpdate m k f) j = fpAsk m j + (if k = j then qa else 0) := by
  unfold flatMapUpdate
  by_cases hfound : m.any (fun p => decide (p.1 = k)) = true
  · rw [if_pos hfound, fpAsk_modifyFirst k j qa f ha m]
    by_cases hkj : k = j
    · rw [if_pos ⟨hkj, hfound⟩, if_pos hkj]
    · rw [if_neg (fun hh => hkj hh.1), if_neg hkj]
  · rw [if_neg hfound, fpAsk_modifyFirst k j qa f ha]
    have hsort := List.perm_insertionSort (fun a b => b.1 ≤ a.1) (m ++ [(k, ⟨0, 0⟩)])
    rw [fpAsk_perm _ _ hsort j, fpAsk_append, any_key_insertionSorted m k]
    have hsingle : fpAsk [(k, ⟨0, 0⟩)] j = 0 := by
      by_cases hkj : k = j <;> simp [fpAsk, hkj]
    rw [hsingle]
    by_cases hkj : k = j <;> simp [hkj]

theorem add_tick_footprint_eq (c : Candle) (t : Tick) :
    (c.add_tick t).footprint_profile =
      (if t.is_buyer_maker = true then
        flatMapUpdate c.footprint_profile t.price
          (fun n => { n with bid_volume := n.bid_volume + t.quantity })
      else
        flatMapUpdate c.footprint_profile t.price
          (fun n => { n with ask_volume := n.ask_volume + t.quantity })) := by
  unfold Candle.add_tick
  by_cases ho : c.open_ = 0 <;> cases hb : t.is_buyer_maker <;> simp [ho, hb]

theorem add_tick_fpBid (c : Candle) (t : Tick) (j : ℚ) :
    fpBid (c.add_tick t).footprint_profile j =
      fpBid c.footprint_profile j +
        (if t.is_buyer_maker = true ∧ t.price = j then t.quantity else 0) := by
  rw [add_tick_footprint_eq]
  cases hb : t.is_buyer_maker
  · simp only [Bool.false_eq_true, if_neg, reduceIte]
    rw [fpBid_flatMapUpdate c.footprint_profile t.price j 0
      (fun n => { n with ask_volume := n.ask_volume + t.quantity })
      (fun n => (add_zero n.bid_volume).symm)]
    simp
  · simp only [reduceIte]
    rw [fpBid_flatMapUpdate c.footprint_profile t.price j t.quantity
      (fun n => { n with bid_volume := n.bid_volume + t.quantity })
      (fun n => rfl)]
    simp

theorem add_tick_fpAsk (c : Candle) (t : Tick) (j : ℚ) :
    fpAsk (c.add_tick t).footprint_profile j =
      fpAsk c.footprint_profile j +
        (if t.is_buyer_maker = false ∧ t.price = j then t.quantity else 0) := by
  rw [add_tick_footprint_eq]
  cases hb : t.is_buyer_maker
  · simp only [Bool.false_eq_true, if_neg, reduceIte]
    rw [fpAsk_flatMapUpdate c.footprint_profile t.price j t.quantity
      (fun n => { n with ask_volume := n.ask_volume + t.quantity })
      (fun n => rfl)]
    simp
  · simp only [reduceIte]
    rw [fpAsk_flatMapUpdate c.footprint_profile t.price j 0
      (fun n => { n with bid_volume := n.bid_volume + t.quantity })
      (fun n => (add_zero n.ask_volume).symm)]
    simp

theorem footprint_fold_aux (ts : List Tick) :
    ∀ (c : Candle) (j : ℚ),
      fpBid (ts.foldl Candle.add_tick c).footprint_profile j =
        fpBid c.footprint_profile j +
          ((ts.filter (fun t =>
            t.is_buyer_maker && decide (t.price = j))).map Tick.quantity).sum ∧
      fpAsk (ts.foldl Candle.add_tick c).footprint_profile j =
        fpAsk c.footprint_profile j +
          ((ts.filter (fun t =>
            !t.is_buyer_maker && decide (t.price = j))).map Tick.quantity).sum := by
  induction ts with
  | nil => intro c j; simp
  | cons t ts ih =>
    intro c j
    obtain ⟨ihb, iha⟩ := ih (c.add_tick t) j
    rw [List.foldl_cons] at *
    constructor
    · rw [ihb, add_tick_fpBid]
      by_cases hb : t.is_buyer_maker = true <;> by_cases hp : t.price = j <;>
        simp [List.filter_cons, hb, hp, add_assoc]
    · rw [iha, add_tick_fpAsk]
      by_cases hb : t.is_buyer_maker = false <;> by_cases hp : t.price = j <;>
        simp [List.filter_cons, hb, hp, add_assoc]

theorem filter_qty_split (ts : List Tick) (j : ℚ) :
    ((ts.filter (fun t => t.is_buyer_maker && decide (t.price = j))).map
      Tick.quantity).sum +
    ((ts.filter (fun t => !t.is_buyer_maker && decide (t.price = j))).map
      Tick.quantity).sum =
    ((ts.filter (fun t => decide (t.price = j))).map Tick.quantity).sum := by
  induction ts with
  | nil => simp
  | cons t ts ih =>
    cases hb : t.is_buyer_maker <;> by_cases hp : t.price = j <;>
      simp [List.filter_cons, hb, hp, ← ih] <;> ring

/-- C4: after folding any trade sequence into one candle, for every price
level the recorded bid volume is exactly the sum of the quantities of the
aggressor-sell trades at that price, the ask volume is exactly the sum over
the other trades at that price, and their sum (`buy_volume + sell_volume`)
equals the sum of the quantities of all trades at that exact price. -/
theorem footprint_invariant (ts : List Tick) (j : ℚ) :
    fpBid ((ts.foldl Candle.add_tick emptyCandle).footprint_profile) j =
      ((ts.filter (fun t =>
        t.is_buyer_maker && decide (t.price = j))).map Tick.quantity).sum ∧
    fpAsk ((ts.foldl Candle.add_tick emptyCandle).footprint_profile) j =
      ((ts.filter (fun t =>
        !t.is_buyer_maker && decide (t.price = j))).map Tick.quantity).sum ∧
    fpBid ((ts.foldl Candle.add_tick emptyCandle).footprint_profile) j +
      fpAsk ((ts.foldl Candle.add_tick emptyCandle).footprint_profile) j =
      ((ts.filter (fun t => decide (t.price = j))).map Tick.quantity).sum := by
  obtain ⟨hb, ha⟩ := footprint_fold_aux ts emptyCandle j
  have hz : emptyCandle.footprint_profile = [] := rfl
  rw [hz] at hb ha
  have hb0 : fpBid [] j = 0 := rfl
  have ha0 : fpAsk [] j = 0 := rfl
  rw [hb0, zero_add] at hb
  rw [ha0, zero_add] at ha
  exact ⟨hb, ha, by rw [hb, ha, filter_qty_split]⟩

end Glora
